import Mathlib

/-!
Verification of the `calendar-fast` document aggregator (Rust, two near-duplicate
program variants).  The development shallowly embeds the core logic:

* the date codec `try_parse_date` (byte-level, mirroring Rust's `str::parse`
  for unsigned integers, including its acceptance of a leading `+`),
* the comment-aware line scanner inside `get_doc` (char-level; a Rust `String`
  line is a list of Unicode scalar values, `﻿` being the decoded form of
  the three BOM bytes EF BB BF),
* the sort comparator and the date-range filter from `main`.

Rust machine integers (`u16`, `u8`, `usize`) are modelled as `Nat`; the only
places their bounds matter (the overflow checks inside integer parsing) carry
the bound explicitly.
-/

/-- `Date { year: u16, month: u8, day: u8 }` from the source.  Fields are `Nat`;
the parser below only produces values within the machine ranges. -/
structure Date where
  year : Nat
  month : Nat
  day : Nat
deriving DecidableEq

/-- An ASCII decimal digit byte, `b'0'..=b'9'`. -/
def isDigitByte (b : Nat) : Bool := 0x30 ≤ b && b ≤ 0x39

/-- Decimal value of a digit-byte string (most significant first). -/
def digitsVal (l : List Nat) : Nat := l.foldl (fun acc b => acc * 10 + (b - 0x30)) 0

/-- Rust `str::parse::<uN>()` on the bytes of a slice: an optional leading `+`,
then one or more ASCII digits, and the value must fit the integer type
(`maxVal` is `u16::MAX` or `u8::MAX` at the two call sites). -/
def rustParseUnsigned (maxVal : Nat) (l : List Nat) : Option Nat :=
  let ds := match l with
    | b :: t => if b = 0x2B then t else l
    | [] => l
  if ds ≠ [] ∧ ds.all isDigitByte then
    let v := digitsVal ds
    if v ≤ maxVal then some v else none
  else none

/-- `try_parse_date` from `src/src/main.rs` (the token-taking variant; the other
variant wraps the same body behind a prefix strip).  The input is the raw byte
string of the token.  Mirrors the source: the length-10 check, the two hyphen
byte checks at indices 4 and 7, the three group parses whose failure leaves the
field at 0 (`unwrap_or_else` writing 0), and the final range check that the
source lets overwrite the `ok` flag.  The error carries the raw token. -/
def try_parse_date (date : List Nat) : Except (List Nat) Date :=
  if date.length = 10 then
    if date.get? 4 = some 0x2D ∧ date.get? 7 = some 0x2D then
      let year := (rustParseUnsigned 65535 ((date.drop 0).take 4)).getD 0
      let month := (rustParseUnsigned 255 ((date.drop 5).take 2)).getD 0
      let day := (rustParseUnsigned 255 ((date.drop 8).take 2)).getD 0
      if 0 < year ∧ 1 ≤ month ∧ month ≤ 12 ∧ 1 ≤ day ∧ day ≤ 31 then
        Except.ok { year := year, month := month, day := day }
      else Except.error date
    else Except.error date
  else Except.error date

/-- UTF-8 encoding of one Unicode scalar value. -/
def utf8EncodeChar (c : Char) : List Nat :=
  let n := c.toNat
  if n < 0x80 then [n]
  else if n < 0x800 then [0xC0 + n / 0x40, 0x80 + n % 0x40]
  else if n < 0x10000 then
    [0xE0 + n / 0x1000, 0x80 + (n / 0x40) % 0x40, 0x80 + n % 0x40]
  else
    [0xF0 + n / 0x40000, 0x80 + (n / 0x1000) % 0x40, 0x80 + (n / 0x40) % 0x40,
     0x80 + n % 0x40]

/-- Bytes of a Rust `&str` whose chars are the given list. -/
def encodeUtf8 (l : List Char) : List Nat := (l.map utf8EncodeChar).flatten

deriving instance DecidableEq for Except

/-- Strip a leading pattern from a char string, Rust `str::strip_prefix`
(the pattern arguments at all call sites are ASCII literals, for which the
char-by-char comparison equals Rust's byte comparison). -/
def stripPre : List Char → List Char → Option (List Char)
  | [], s => some s
  | _ :: _, [] => none
  | p :: ps, c :: cs => if p = c then stripPre ps cs else none

/-- Rust `char::is_whitespace`: the Unicode `White_Space` property. -/
def rustIsWhitespace (c : Char) : Bool :=
  let n := c.toNat
  (0x09 ≤ n && n ≤ 0x0D) || n = 0x20 || n = 0x85 || n = 0xA0 || n = 0x1680 ||
  (0x2000 ≤ n && n ≤ 0x200A) || n = 0x2028 || n = 0x2029 || n = 0x202F ||
  n = 0x205F || n = 0x3000

/-- Rust `str::trim`: drop whitespace chars from both ends. -/
def rustTrim (l : List Char) : List Char :=
  ((l.dropWhile rustIsWhitespace).reverse.dropWhile rustIsWhitespace).reverse

/-- The char carried by the 3-byte sequence EF BB BF, i.e. U+FEFF; the source's
`BOM` static is the one-char `&str` holding exactly this scalar value, so a
(valid UTF-8) line starts with the three BOM bytes iff it starts with this
char. -/
def bomChar : Char := Char.ofNat 0xFEFF

/-- The `line_original.strip_prefix(BOM)` step of `get_doc`: drop a leading
U+FEFF if present, otherwise keep the line unchanged. -/
def stripBom (l : List Char) : List Char :=
  match l with
  | c :: t => if c = bomChar then t else l
  | [] => []

/-- `str::replace(s, "\\", "/")`: the pattern is a single char, so this is a
char map. -/
def slashify (l : List Char) : List Char :=
  l.map (fun c => if c = '\\' then '/' else c)

/-- `Path::has_root` on Unix: the path begins with a separator. -/
def hasRoot (p : List Char) : Bool := p.head? = some '/'

/-- The text of the first component of a Unix path that does not begin with a
separator: everything up to the first `/`. -/
def firstSeg (p : List Char) : List Char := p.takeWhile (fun c => c ≠ '/')

/-- `Path::new(p).starts_with("http://")` for a path `p` without a root, on
Unix.  `Path::starts_with` compares whole components; the components of
`"http://"` are the single normal component `"http:"` (the trailing separators
are dropped), so the check holds iff the first component of `p` is exactly
`"http:"`.  For a rootless `p` that first component is the text up to the
first separator (a leading `"."` or `".."` yields the `CurDir` / `ParentDir`
component, whose text is again that segment and is never `"http:"`). -/
def pathStartsWithSeg (p seg : List Char) : Bool := firstSeg p = seg

/-- `parent.join(p)` (`PathBuf::push`) on Unix for the injection call site:
an absolute `p` replaces the base; an empty base yields `p`; otherwise a `/`
is interposed unless the base already ends with one. -/
def rustJoin (base p : List Char) : List Char :=
  if hasRoot p then p
  else if base = [] then p
  else if base.getLast? = some '/' then base ++ p
  else base ++ '/' :: p

/-- `try_parse_date_with_prefix` from `src/src/main.rs`: `Ok none` when the
line does not start with the pattern, otherwise the result of
`try_parse_date` on the remainder (whose bytes are the UTF-8 encoding of the
remaining chars). -/
def try_parse_date_with_pre (line pat : List Char) :
    Except (List Nat) (Option Date) :=
  match stripPre pat line with
  | some date =>
    match try_parse_date (encodeUtf8 date) with
    | Except.ok d => Except.ok (some d)
    | Except.error e => Except.error e
  | none => Except.ok none

/-- The mutable per-document state of the `get_doc` loop in `src/src/main.rs`:
the three comment flags plus the accumulated fields of `Doc`. -/
structure ScanState where
  cmt_block : Bool
  cmt_section : Bool
  cmt_section_block : Bool
  revdate : Option Date
  content : List Char
  has_imagesdir : Bool
deriving DecidableEq

/-- The comment-flag transition at the top of the `get_doc` loop body, applied
to the trimmed line. -/
def commentStep (st : ScanState) (line : List Char) : ScanState :=
  if line = "////".data then { st with cmt_block := !st.cmt_block }
  else if line = "[comment]".data then { st with cmt_section := true }
  else if st.cmt_section then
    if line = "--".data then
      if !st.cmt_section_block then { st with cmt_section_block := true }
      else { st with cmt_section_block := false, cmt_section := false }
    else if line = [] then
      if !st.cmt_section_block then { st with cmt_section := false }
      else st
    else st
  else st

/-- `!comment` of the loop body, for the state reached after this line's own
comment-flag transition: the line's liveness for metadata purposes. -/
def liveAfter (st : ScanState) (line : List Char) : Bool :=
  let st' := commentStep st line
  !(st'.cmt_block || st'.cmt_section)

/-- Outcome of one `get_doc` loop iteration: the `return Ok(None)` of an
`include::` line, the `return Err(..)` of a revdate parse failure (carrying
the raw token), or the next state. -/
inductive StepResult where
  | skip
  | err (raw : List Nat)
  | next (st : ScanState)
deriving DecidableEq

/-- The condition of the rewrite injection in `get_doc`:
`!p.has_root() && !p.starts_with("http://") && !p.starts_with("https://")`
on the captured path. -/
def imagesdirRewriteCond (dir : List Char) : Bool :=
  !hasRoot dir && !pathStartsWithSeg dir "http:".data &&
    !pathStartsWithSeg dir "https:".data

/-- The injected rewrite line of `get_doc`: `":imagesdir: "`, then the parent
directory of the document path joined with the captured path, backslashes
normalized to forward slashes, then a newline. -/
def imagesdirRewriteLine (parentDir dir : List Char) : List Char :=
  ":imagesdir: ".data ++ slashify (rustJoin parentDir dir) ++ ['\n']

/-- One iteration of the `get_doc` loop of `src/src/main.rs` on the raw line
text (newline already removed by `lines()`): trim, comment-flag transition,
the `!comment`-guarded directive checks (`include::` skip, set-once revdate
with fatal parse errors, per-line imagesdir capture), the BOM-stripped append
of the original line to `content`, and the injected rewrite of a captured
relative, non-URL imagesdir.  `parentDir` stands for
`path.parent().unwrap().to_str().unwrap()` of the document path. -/
def scanLine (parentDir : List Char) (st0 : ScanState) (rawLine : List Char) :
    StepResult :=
  let line := rustTrim rawLine
  let st := commentStep st0 line
  let comment := st.cmt_block || st.cmt_section
  if comment = false ∧ "include::".data.isPrefixOf line then StepResult.skip
  else
    let revParse : Except (List Nat) (Option Date) :=
      if comment = false ∧ st.revdate = none then
        try_parse_date_with_pre line ":revdate: ".data
      else Except.ok none
    match revParse with
    | Except.error raw => StepResult.err raw
    | Except.ok od =>
      let st := match od with
        | some d => { st with revdate := some d }
        | none => st
      let imagesdir : Option (List Char) :=
        if comment = false then stripPre ":imagesdir: ".data line else none
      let st := { st with content := st.content ++ stripBom rawLine ++ ['\n'] }
      match imagesdir with
      | none => StepResult.next st
      | some dir =>
        let st := { st with has_imagesdir := true }
        if imagesdirRewriteCond dir then
          StepResult.next { st with content := st.content ++ imagesdirRewriteLine parentDir dir }
        else StepResult.next st

/-- The `Doc` struct of `src/src/main.rs`. -/
structure Doc where
  path : List Char
  revdate : Option Date
  content : List Char
  has_imagesdir : Bool
deriving DecidableEq

/-- A fatal error of `get_doc`: the document path, the 0-based line index the
source reports as `line + 1`, and the raw date token of the failed parse. -/
structure LineError where
  path : List Char
  line : Nat
  raw : List Nat
deriving DecidableEq

/-- Initial scanner state of `get_doc`: all comment flags false, no revdate,
empty content, no imagesdir. -/
def initState : ScanState :=
  { cmt_block := false, cmt_section := false, cmt_section_block := false,
    revdate := none, content := [], has_imagesdir := false }

/-- The `get_doc` loop over the remaining lines, carrying the line index. -/
def get_doc_go (path parentDir : List Char) (ln : Nat) (st : ScanState) :
    List (List Char) → Except LineError (Option Doc)
  | [] => Except.ok (some (Doc.mk path st.revdate st.content st.has_imagesdir))
  | l :: ls =>
    match scanLine parentDir st l with
    | StepResult.skip => Except.ok none
    | StepResult.err raw => Except.error (LineError.mk path ln raw)
    | StepResult.next st' => get_doc_go path parentDir (ln + 1) st' ls

/-- `get_doc` of `src/src/main.rs`, abstracted over I/O: the document is the
list of its physical lines (as produced by `BufReader::lines`), `Ok none` is
the `include::` skip, and `parentDir` stands for the parent directory string
of `path` used by the imagesdir rewrite. -/
def get_doc (path parentDir : List Char) (lines : List (List Char)) :
    Except LineError (Option Doc) :=
  get_doc_go path parentDir 0 initState lines

/-- The result state of appending a line's BOM-stripped text and a newline to
the body, the unconditional part of each `get_doc` iteration. -/
def appendBody (st : ScanState) (raw : List Char) : ScanState :=
  { st with content := st.content ++ stripBom raw ++ ['\n'] }

/-- Rust `Ord::cmp` on machine integers (modelled on `Nat`). -/
def cmpN (a b : Nat) : Ordering :=
  if a < b then Ordering.lt else if a = b then Ordering.eq else Ordering.gt

/-- The body of the `sort_by` closure in `main` (identical in both program
variants), lifted to the two `revdate` fields it reads: `None`/`None` is
`Equal`, `None` sorts `Greater` than any date, and two dates compare by
`r.cmp(&l)` on year, then month, then day (descending order). -/
def revdate_cmp (l r : Option Date) : Ordering :=
  match l, r with
  | none, none => Ordering.eq
  | none, some _ => Ordering.gt
  | some _, none => Ordering.lt
  | some l, some r =>
    let y := cmpN r.year l.year
    let m := cmpN r.month l.month
    let d := cmpN r.day l.day
    if y ≠ Ordering.eq then y
    else if m ≠ Ordering.eq then m
    else if d ≠ Ordering.eq then d
    else Ordering.eq

/-- The `sort_by` comparator itself, on documents. -/
def doc_cmp (a b : Doc) : Ordering := revdate_cmp a.revdate b.revdate

/-- `Date::ge` from `src/src/main.rs`: the short-circuit chain on year, month,
day. -/
def Date.ge (a b : Date) : Bool :=
  if a.year > b.year then true
  else if a.year = b.year ∧ a.month > b.month then true
  else if a.year = b.year ∧ a.month = b.month ∧ a.day ≥ b.day then true
  else false

/-- `Date::le` from `src/src/main.rs`. -/
def Date.le (a b : Date) : Bool :=
  if a.year < b.year then true
  else if a.year = b.year ∧ a.month < b.month then true
  else if a.year = b.year ∧ a.month = b.month ∧ a.day ≤ b.day then true
  else false

/-- The filter closure of `main` in `src/src/main.rs` (the range-aware
variant): keep a document iff it has a revdate within the inclusive bounds;
an undated document is dropped. -/
def keep_filter (startDate endDate : Date) (doc : Doc) : Bool :=
  match doc.revdate with
  | some date => date.ge startDate && date.le endDate
  | none => false

/-- Default `start_date` of `main`: `Date { year: 0, month: 0, day: 0 }`,
the minimum representable date. -/
def default_start : Date := ⟨0, 0, 0⟩

/-- Default `end_date` of `main`: `u16::MAX` / `u8::MAX` fields, the maximum
representable date. -/
def default_end : Date := ⟨65535, 255, 255⟩

/-- The document selection the range-aware variant feeds to `generate`:
`docs.iter().filter(..)`. -/
def selected_docs (startDate endDate : Date) (docs : List Doc) : List Doc :=
  docs.filter (keep_filter startDate endDate)

/-- The document selection of the variant without a range filter
(`src/main.rs`): `generate` consumes `docs.iter()` unfiltered. -/
def selected_docs_nofilter (docs : List Doc) : List Doc := docs

/-- Strict lexicographic order on (year, month, day). -/
def dateLexLt (a b : Date) : Prop :=
  a.year < b.year ∨ (a.year = b.year ∧
    (a.month < b.month ∨ (a.month = b.month ∧ a.day < b.day)))

/-- Inclusive lexicographic order on (year, month, day). -/
def dateLexLe (a b : Date) : Prop :=
  a.year < b.year ∨ (a.year = b.year ∧
    (a.month < b.month ∨ (a.month = b.month ∧ a.day ≤ b.day)))

instance (a b : Date) : Decidable (dateLexLt a b) := by
  unfold dateLexLt; infer_instance

instance (a b : Date) : Decidable (dateLexLe a b) := by
  unfold dateLexLe; infer_instance

/-- The acceptance condition exactly as claim C7 words it: a token of exactly
10 characters in the pattern `DDDD-DD-DD` with every `D` a decimal digit,
literal hyphens at offsets 4 and 7, and the three digit groups in range. -/
def claimDateFormat (bs : List Nat) : Bool :=
  bs.length = 10 &&
  (bs.take 4).all isDigitByte && bs.get? 4 = some 0x2D &&
  ((bs.drop 5).take 2).all isDigitByte && bs.get? 7 = some 0x2D &&
  ((bs.drop 8).take 2).all isDigitByte &&
  1 ≤ digitsVal (bs.take 4) &&
  1 ≤ digitsVal ((bs.drop 5).take 2) && digitsVal ((bs.drop 5).take 2) ≤ 12 &&
  1 ≤ digitsVal ((bs.drop 8).take 2) && digitsVal ((bs.drop 8).take 2) ≤ 31

/-- A byte group accepted by Rust's unsigned-integer `parse`: an optional
leading `+` (byte 0x2B), then one or more ASCII digits. -/
def plusDigits (g : List Nat) : Bool :=
  match g with
  | [] => false
  | b :: t =>
    if b = 0x2B then !t.isEmpty && t.all isDigitByte
    else isDigitByte b && t.all isDigitByte

/-- Numeric value of a `plusDigits` group. -/
def groupVal (g : List Nat) : Nat :=
  match g with
  | [] => 0
  | b :: t => if b = 0x2B then digitsVal t else digitsVal (b :: t)

/-- The amended acceptance condition for C7: as `claimDateFormat`, except that
each group is any string Rust's unsigned-integer `parse` accepts — an optional
leading `+` followed by decimal digits — rather than digits only. -/
def amendedDateFormat (bs : List Nat) : Bool :=
  bs.length = 10 &&
  bs.get? 4 = some 0x2D && bs.get? 7 = some 0x2D &&
  plusDigits (bs.take 4) && plusDigits ((bs.drop 5).take 2) &&
  plusDigits ((bs.drop 8).take 2) &&
  1 ≤ groupVal (bs.take 4) &&
  1 ≤ groupVal ((bs.drop 5).take 2) && groupVal ((bs.drop 5).take 2) ≤ 12 &&
  1 ≤ groupVal ((bs.drop 8).take 2) && groupVal ((bs.drop 8).take 2) ≤ 31

/-- The rewrite condition exactly as claim C5 words it: the captured path has
no root and does not start — as a string — with `http://` or `https://`. -/
def claimRewriteCond (dir : List Char) : Bool :=
  !hasRoot dir && !("http://".data.isPrefixOf dir) &&
    !("https://".data.isPrefixOf dir)

/-- A UTF-8 continuation byte, `0x80..=0xBF`. -/
def isCont (b : Nat) : Bool := 0x80 ≤ b && b < 0xC0

/-- Check that the next `n` bytes are continuation bytes; `some` of the
remainder on success. -/
def contOk : Nat → List Nat → Option (List Nat)
  | 0, l => some l
  | n + 1, c :: l => if isCont c then contOk n l else none
  | _ + 1, [] => none

/-- Number of continuation bytes demanded by a UTF-8 lead byte, `none` for a
byte that can never start a character. -/
def utf8SeqLen (b : Nat) : Option Nat :=
  if b < 0x80 then some 0
  else if 0xC2 ≤ b ∧ b ≤ 0xDF then some 1
  else if 0xE0 ≤ b ∧ b ≤ 0xEF then some 2
  else if 0xF0 ≤ b ∧ b ≤ 0xF4 then some 3
  else none

/-- The byte string decomposes into UTF-8-shaped chunks: each chunk is an
ASCII byte, or a 2-, 3- or 4-byte lead followed by that many continuation
bytes.  Every byte string of a valid Rust `String` satisfies this (real UTF-8
additionally restricts some second bytes, e.g. against overlong forms and
surrogates, which only shrinks the set of strings), and it is all the safety
proof below needs. -/
def utf8Chunked (l : List Nat) : Bool :=
  match l with
  | [] => true
  | b :: rest =>
    match utf8SeqLen b with
    | some n =>
      match h : contOk n rest with
      | some rest' => utf8Chunked rest'
      | none => false
    | none => false
termination_by l.length
decreasing_by
  have hlen : ∀ (n : Nat) (l l' : List Nat),
      contOk n l = some l' → l'.length ≤ l.length := by
    intro n
    induction n with
    | zero =>
      intro l l' hx
      simp only [contOk, Option.some.injEq] at hx
      rw [← hx]
    | succ m ih =>
      intro l l' hx
      rcases l with _ | ⟨c, t⟩
      · simp [contOk] at hx
      · simp only [contOk] at hx
        by_cases hc : isCont c = true
        · rw [if_pos hc] at hx
          have := ih t l' hx
          simp only [List.length_cons]
          omega
        · rw [if_neg hc] at hx
          exact absurd hx (by simp)
  simp only [List.length_cons]
  exact Nat.lt_succ_of_le (hlen _ _ _ h)

/-- Rust `str::is_char_boundary`: true at the string's end, and at an index
holding a byte that is not a continuation byte; false past the end. -/
def isCharBoundaryRust (l : List Nat) (i : Nat) : Bool :=
  match l.get? i with
  | some b => b < 0x80 || 0xC0 ≤ b
  | none => i = l.length

/-- Rust `&str[s..e]`: `some` slice when `s ≤ e` and both ends are char
boundaries, `none` for the panic. -/
def strSliceChecked (l : List Nat) (s e : Nat) : Option (List Nat) :=
  if s ≤ e ∧ isCharBoundaryRust l s = true ∧ isCharBoundaryRust l e = true then
    some ((l.drop s).take (e - s))
  else none

/-- `try_parse_date` with every memory access made explicit: the byte reads
`date[4]`, `date[7]` are `get?` (a `none` would be the out-of-bounds panic)
and the three string slices go through `strSliceChecked` (a `none` would be
the char-boundary panic).  `none` overall models any panic. -/
def try_parse_date_checked (date : List Nat) : Option (Except (List Nat) Date) :=
  if date.length = 10 then
    match date.get? 4, date.get? 7 with
    | some b4, some b7 =>
      if b4 = 0x2D ∧ b7 = 0x2D then
        match strSliceChecked date 0 4, strSliceChecked date 5 7,
            strSliceChecked date 8 10 with
        | some g1, some g2, some g3 =>
          let year := (rustParseUnsigned 65535 g1).getD 0
          let month := (rustParseUnsigned 255 g2).getD 0
          let day := (rustParseUnsigned 255 g3).getD 0
          some (if 0 < year ∧ 1 ≤ month ∧ month ≤ 12 ∧ 1 ≤ day ∧ day ≤ 31 then
            Except.ok (Date.mk year month day)
          else Except.error date)
        | _, _, _ => none
      else some (Except.error date)
    | _, _ => none
  else some (Except.error date)
example : try_parse_date (encodeUtf8 "2024-01-05".data) =
    Except.ok { year := 2024, month := 1, day := 5 } := by decide

example : try_parse_date (encodeUtf8 "+123-01-01".data) =
    Except.ok { year := 123, month := 1, day := 1 } := by decide

example : try_parse_date (encodeUtf8 "2024-13-05".data) =
    Except.error (encodeUtf8 "2024-13-05".data) := by decide

example : (get_doc "a".data "".data
    ["////".data, ":revdate: 2024-01-05".data, "////".data]).map
      (fun od => od.map Doc.revdate) = Except.ok (some none) := by decide

example : (get_doc "a".data "".data [":revdate: 2024-01-05".data]).map
    (fun od => od.map Doc.revdate) =
      Except.ok (some (some ⟨2024, 1, 5⟩)) := by decide

example : (get_doc "a".data "".data
    [":revdate: 2024-01-05".data, ":revdate: bogus".data]).map
      (fun od => od.map Doc.revdate) =
      Except.ok (some (some ⟨2024, 1, 5⟩)) := by decide

example : get_doc "a".data "".data
    ["hello".data, "include::chapter.adoc[]".data] = Except.ok none := by decide

example : (get_doc "a".data "docs".data [":imagesdir: images".data]).map
    (fun od => od.map Doc.content) =
      Except.ok (some (":imagesdir: images\n:imagesdir: docs/images\n".data)) := by
  decide

example : (get_doc "a".data "".data
    ["[comment]".data, ":revdate: 2024-01-05".data, "".data,
     ":revdate: 2023-02-03".data]).map (fun od => od.map Doc.revdate) =
      Except.ok (some (some ⟨2023, 2, 3⟩)) := by decide

example : (get_doc "a".data "".data
    ["[comment]".data, "--".data, "".data, ":revdate: 2024-01-05".data,
     "--".data, ":revdate: 2023-02-03".data]).map
      (fun od => od.map Doc.revdate) =
      Except.ok (some (some ⟨2023, 2, 3⟩)) := by decide

example : get_doc "a".data "".data [":revdate: bogus12345".data] =
    Except.error (LineError.mk "a".data 0 (encodeUtf8 "bogus12345".data)) := by
  decide


theorem cons_ne_cons_of_ne {α} {a b : α} (h : a ≠ b) (t r : List α) :
    a :: t ≠ b :: r := by
  intro hc; injection hc with h1 _; exact h h1

theorem stripPre_append (p s : List Char) : stripPre p (p ++ s) = some s := by
  induction p with
  | nil => simp [stripPre]
  | cons a t ih => simp [stripPre, ih]

theorem commentStep_eq_self (st : ScanState) (line : List Char)
    (h1 : line ≠ "////".data) (h2 : line ≠ "[comment]".data)
    (h3 : line ≠ "--".data) (h4 : line ≠ []) :
    commentStep st line = st := by
  simp [commentStep, h1, h2, h3, h4]

/-- C1: a `:revdate: <token>` line inside an open `////` block leaves `revdate`
unset and only appends the line to the body; the same line, live with
`revdate` still unset, sets `revdate` to the parsed date; and once `revdate`
is set such a line is never parsed again — it neither changes `revdate` nor
errors, however malformed its token. -/
theorem revdate_capture (parentDir : List Char) (st : ScanState)
    (raw tok : List Char) (h : rustTrim raw = ":revdate: ".data ++ tok) :
    (st.cmt_block = true →
      scanLine parentDir st raw = StepResult.next (appendBody st raw)) ∧
    (∀ d : Date, st.cmt_block = false → st.cmt_section = false →
      st.revdate = none → try_parse_date (encodeUtf8 tok) = Except.ok d →
      scanLine parentDir st raw =
        StepResult.next (appendBody { st with revdate := some d } raw)) ∧
    (∀ d0 : Date, st.revdate = some d0 →
      scanLine parentDir st raw = StepResult.next (appendBody st raw)) := by
  have h1 : rustTrim raw ≠ "////".data := by
    rw [h]; exact cons_ne_cons_of_ne (by decide) _ _
  have h2 : rustTrim raw ≠ "[comment]".data := by
    rw [h]; exact cons_ne_cons_of_ne (by decide) _ _
  have h3 : rustTrim raw ≠ "--".data := by
    rw [h]; exact cons_ne_cons_of_ne (by decide) _ _
  have h4 : rustTrim raw ≠ [] := by rw [h]; simp
  have hcs : commentStep st (rustTrim raw) = st :=
    commentStep_eq_self st _ h1 h2 h3 h4
  rw [h] at hcs
  simp only [List.append_eq] at hcs
  simp at hcs
  refine ⟨?_, ?_, ?_⟩
  · intro hb
    simp [scanLine, h, hcs, hb, appendBody]
  · intro d hb hs hrd hp
    simp [scanLine, h, hcs, hb, hs, hrd, try_parse_date_with_pre,
      stripPre_append, hp, stripPre, List.isPrefixOf, appendBody]
  · intro d0 hrd
    simp [scanLine, h, hcs, hrd, stripPre, List.isPrefixOf, appendBody]

theorem revdate_capture_witness :
    scanLine [] initState ":revdate: 2024-01-05".data =
      StepResult.next (appendBody { initState with revdate := some ⟨2024, 1, 5⟩ }
        ":revdate: 2024-01-05".data) :=
  (revdate_capture [] initState ":revdate: 2024-01-05".data "2024-01-05".data
    (by decide)).2.1 ⟨2024, 1, 5⟩ rfl rfl rfl (by decide)

/-- C2: the section-comment transitions of the classifier: `[comment]` opens a
section comment; while it is open, `--` opens the inner block if closed and
otherwise closes both flags; an empty line closes the section comment exactly
when the inner block is closed, so a blank line inside a `--` block leaves the
section comment active. -/
theorem section_comment_flags (st : ScanState) :
    (commentStep st "[comment]".data = { st with cmt_section := true }) ∧
    (st.cmt_section = true → st.cmt_section_block = false →
      commentStep st "--".data = { st with cmt_section_block := true }) ∧
    (st.cmt_section = true → st.cmt_section_block = true →
      commentStep st "--".data =
        { st with cmt_section := false, cmt_section_block := false }) ∧
    (st.cmt_section = true → st.cmt_section_block = false →
      commentStep st [] = { st with cmt_section := false }) ∧
    (st.cmt_section = true → st.cmt_section_block = true →
      commentStep st [] = st) := by
  refine ⟨by simp [commentStep], ?_, ?_, ?_, ?_⟩ <;>
    (intro hs hb; simp [commentStep, hs, hb])

theorem section_comment_flags_witness :
    commentStep { initState with cmt_section := true } "--".data =
      { initState with cmt_section := true, cmt_section_block := true } :=
  (section_comment_flags { initState with cmt_section := true }).2.1 rfl rfl

/-- C3 counterexample: the claim holds that a `////` toggle line is never live
under liveness-after-transition; but when the line closes an open block while
no section comment is active, the state after the transition has both flags
false, so the line is live by that very definition. -/
theorem block_toggle_claim_counterexample :
    liveAfter (ScanState.mk true false false none [] false)
      (rustTrim "////".data) = true := by decide

/-- C3 (amended): a line trimming to `////` flips `cmt_block` and changes no
other flag; the line itself is non-live when it opens the block, while a
closing toggle is live exactly when no section comment is active — yet in
every case the line never triggers the include skip, never parses or errors a
revdate, and never captures an imagesdir: the step always returns `next` with
only the toggled flag and the appended body text. -/
theorem block_toggle_behavior (parentDir : List Char) (st : ScanState)
    (raw : List Char) (h : rustTrim raw = "////".data) :
    (commentStep st (rustTrim raw) = { st with cmt_block := !st.cmt_block }) ∧
    (st.cmt_block = false → liveAfter st (rustTrim raw) = false) ∧
    (st.cmt_block = true → liveAfter st (rustTrim raw) = !st.cmt_section) ∧
    scanLine parentDir st raw =
      StepResult.next (appendBody { st with cmt_block := !st.cmt_block } raw) := by
  refine ⟨by simp [commentStep, h], ?_, ?_, ?_⟩
  · intro hb; simp [liveAfter, commentStep, h, hb]
  · intro hb; simp [liveAfter, commentStep, h, hb]
  · simp [scanLine, commentStep, h, stripPre, List.isPrefixOf,
      try_parse_date_with_pre, appendBody]

theorem block_toggle_witness :
    scanLine [] { initState with cmt_block := true } "////".data =
      StepResult.next (appendBody initState "////".data) := by
  have hmain := (block_toggle_behavior [] { initState with cmt_block := true }
    "////".data (by decide)).2.2.2
  simpa using hmain

/-- C4: a line whose trimmed text starts with `include::`, reached with both
comment flags off, makes the whole extraction return the skip (`Ok(None)`)
immediately — whatever metadata was accumulated and whatever lines follow are
discarded; the same line reached inside a comment region is suppressed: the
step just appends it to the body with no metadata effect. -/
theorem include_skip (path parentDir : List Char) (st : ScanState)
    (raw : List Char) (h : "include::".data.isPrefixOf (rustTrim raw) = true) :
    (st.cmt_block = false → st.cmt_section = false →
      scanLine parentDir st raw = StepResult.skip ∧
      ∀ (ln : Nat) (rest : List (List Char)),
        get_doc_go path parentDir ln st (raw :: rest) = Except.ok none) ∧
    ((st.cmt_block = true ∨ st.cmt_section = true) →
      scanLine parentDir st raw = StepResult.next (appendBody st raw)) := by
  obtain ⟨t, ht⟩ := List.isPrefixOf_iff_prefix.mp h
  have h1 : rustTrim raw ≠ "////".data := by
    rw [← ht]; exact cons_ne_cons_of_ne (by decide) _ _
  have h2 : rustTrim raw ≠ "[comment]".data := by
    rw [← ht]; exact cons_ne_cons_of_ne (by decide) _ _
  have h3 : rustTrim raw ≠ "--".data := by
    rw [← ht]; exact cons_ne_cons_of_ne (by decide) _ _
  have h4 : rustTrim raw ≠ [] := by rw [← ht]; simp
  have hcs : commentStep st (rustTrim raw) = st :=
    commentStep_eq_self st _ h1 h2 h3 h4
  constructor
  · intro hb hs
    have hscan : scanLine parentDir st raw = StepResult.skip := by
      simp [scanLine, hcs, hb, hs, h]
    refine ⟨hscan, fun ln rest => ?_⟩
    simp [get_doc_go, hscan]
  · intro hor
    have hcomment : (st.cmt_block || st.cmt_section) = true := by
      rcases hor with hb | hs
      · simp [hb]
      · simp [hs]
    simp [scanLine, hcs, hcomment, appendBody]

theorem include_skip_witness :
    scanLine [] initState "include::chapter.adoc[]".data = StepResult.skip ∧
    get_doc "x".data [] ["include::chapter.adoc[]".data] = Except.ok none := by
  have hmain := (include_skip "x".data [] initState
    "include::chapter.adoc[]".data (by decide)).1 rfl rfl
  exact ⟨hmain.1, hmain.2 0 []⟩

theorem commentStep_preserves (st : ScanState) (line : List Char) :
    (commentStep st line).revdate = st.revdate ∧
    (commentStep st line).content = st.content ∧
    (commentStep st line).has_imagesdir = st.has_imagesdir := by
  unfold commentStep
  split_ifs <;> simp

theorem stripPre_suffix (p : List Char) :
    ∀ s r : List Char, stripPre p s = some r → r <:+ s := by
  induction p with
  | nil =>
    intro s r hr
    simp [stripPre] at hr
    exact hr ▸ List.suffix_rfl
  | cons a t ih =>
    intro s r hr
    match s with
    | [] => simp [stripPre] at hr
    | c :: cs =>
      simp only [stripPre] at hr
      by_cases hac : a = c
      · rw [if_pos hac] at hr
        exact (ih cs r hr).trans (List.suffix_cons c cs)
      · rw [if_neg hac] at hr
        exact absurd hr (by simp)

theorem rustTrim_subset (l : List Char) : rustTrim l ⊆ l := by
  intro c hc
  unfold rustTrim at hc
  rw [List.mem_reverse] at hc
  have h1 := (List.dropWhile_sublist (l := (l.dropWhile rustIsWhitespace).reverse)
    (p := rustIsWhitespace)).subset hc
  rw [List.mem_reverse] at h1
  exact (List.dropWhile_sublist (l := l) (p := rustIsWhitespace)).subset h1

theorem slashify_bom_mem (l : List Char) (h : bomChar ∈ slashify l) :
    bomChar ∈ l := by
  unfold slashify at h
  rw [List.mem_map] at h
  obtain ⟨a, ha, hae⟩ := h
  by_cases hb : a = '\\'
  · rw [if_pos hb] at hae
    exact absurd hae (by decide)
  · rw [if_neg hb] at hae
    exact hae ▸ ha

theorem rustJoin_mem (base p : List Char) (c : Char) (h : c ∈ rustJoin base p) :
    c ∈ base ∨ c ∈ p ∨ c = '/' := by
  unfold rustJoin at h
  split_ifs at h
  · exact Or.inr (Or.inl h)
  · exact Or.inr (Or.inl h)
  · rcases List.mem_append.mp h with h1 | h2
    · exact Or.inl h1
    · exact Or.inr (Or.inl h2)
  · rcases List.mem_append.mp h with h1 | h2
    · exact Or.inl h1
    · rcases List.mem_cons.mp h2 with h3 | h4
      · exact Or.inr (Or.inr h3)
      · exact Or.inr (Or.inl h4)

theorem rewriteLine_bom_mem (parentDir dir : List Char)
    (h : bomChar ∈ imagesdirRewriteLine parentDir dir) :
    bomChar ∈ parentDir ∨ bomChar ∈ dir := by
  unfold imagesdirRewriteLine at h
  rcases List.mem_append.mp h with h1 | h2
  · rcases List.mem_append.mp h1 with h3 | h4
    · exact absurd h3 (by decide)
    · rcases rustJoin_mem _ _ _ (slashify_bom_mem _ h4) with h5 | h6 | h7
      · exact Or.inl h5
      · exact Or.inr h6
      · exact absurd h7 (by decide)
  · exact absurd h2 (by decide)

/-- Shape of every successful `get_doc` iteration: the body grows by exactly
the BOM-stripped raw line, a newline, and an injection that is nonempty only
when this very line captured an imagesdir satisfying the rewrite condition;
without a capture the `has_imagesdir` flag is unchanged as well. -/
theorem scanLine_next_cases (parentDir : List Char) (st : ScanState)
    (raw : List Char) (st' : ScanState)
    (hscan : scanLine parentDir st raw = StepResult.next st') :
    ∃ inj, st'.content = st.content ++ stripBom raw ++ '\n' :: inj ∧
      (inj = [] ∨ ∃ dir, stripPre ":imagesdir: ".data (rustTrim raw) = some dir ∧
        inj = imagesdirRewriteLine parentDir dir) ∧
      (stripPre ":imagesdir: ".data (rustTrim raw) = none →
        inj = [] ∧ st'.has_imagesdir = st.has_imagesdir) := by
  obtain ⟨hrd, hct, hhi⟩ := commentStep_preserves st (rustTrim raw)
  simp only [scanLine] at hscan
  split at hscan
  · exact absurd hscan (by simp)
  · split at hscan
    · exact absurd hscan (by simp)
    next od hod =>
      rcases od with _ | d
      all_goals
        simp only [] at hscan
        split at hscan
        next hnone =>
          refine ⟨[], ?_, Or.inl rfl, fun _ => ⟨rfl, ?_⟩⟩ <;>
            (injection hscan with hst; rw [← hst]; simp [hct, hhi])
        next dir hsome =>
          have hcond : stripPre ":imagesdir: ".data (rustTrim raw) = some dir := by
            by_cases hco : ((commentStep st (rustTrim raw)).cmt_block ||
                (commentStep st (rustTrim raw)).cmt_section) = false
            · rw [if_pos hco] at hsome; exact hsome
            · rw [if_neg hco] at hsome; exact absurd hsome (by simp)
          split at hscan
          · refine ⟨imagesdirRewriteLine parentDir dir, ?_,
              Or.inr ⟨dir, hcond, rfl⟩, fun hn => absurd hcond (by simp [hn])⟩
            injection hscan with hst
            rw [← hst]
            simp [hct]
          · refine ⟨[], ?_, Or.inl rfl, fun hn => absurd hcond (by simp [hn])⟩
            injection hscan with hst
            rw [← hst]
            simp [hct]

/-- C5 counterexample: for the captured path `http:/x` the claim's
string-prefix condition demands an injected rewrite line (the path has no root
and, as a string, does not start with `http://`), but the code's
`Path::starts_with` compares components — the first component of `http:/x` is
`http:` — so it treats the path as a URL and injects nothing: the step returns
only the raw line appended and the flag set. -/
theorem imagesdir_claim_counterexample :
    claimRewriteCond "http:/x".data = true ∧
    scanLine "base".data initState ":imagesdir: http:/x".data =
      StepResult.next { appendBody initState ":imagesdir: http:/x".data with has_imagesdir := true } := by
  constructor
  · decide
  · decide

/-- C5 (amended): whenever a live line's trimmed text is `":imagesdir: " ++ dir`,
the step marks `has_imagesdir` and appends, immediately after the line itself,
exactly one rewritten directive line — `":imagesdir: "` plus the parent
directory joined with `dir`, backslashes forward-slashed — precisely when
`dir` has no root and its first path component is neither `http:` nor
`https:` (the component semantics of `Path::starts_with`, under which e.g.
`http:/x` also counts as a URL start); for rooted paths and URL-component
paths nothing is injected; and the capture is not sticky: a line without the
prefix never gets an injection and never changes `has_imagesdir`. -/
theorem imagesdir_capture (parentDir : List Char) (st : ScanState)
    (raw dir : List Char) (h : rustTrim raw = ":imagesdir: ".data ++ dir)
    (hb : st.cmt_block = false) (hs : st.cmt_section = false) :
    (imagesdirRewriteCond dir = true ↔
      (hasRoot dir = false ∧ firstSeg dir ≠ "http:".data ∧
        firstSeg dir ≠ "https:".data)) ∧
    (∃ st', scanLine parentDir st raw = StepResult.next st' ∧
      st'.has_imagesdir = true ∧ st'.revdate = st.revdate ∧
      st'.content = st.content ++ stripBom raw ++ '\n' ::
        (if imagesdirRewriteCond dir then imagesdirRewriteLine parentDir dir
         else [])) ∧
    (∀ st2 raw2 st2', stripPre ":imagesdir: ".data (rustTrim raw2) = none →
      scanLine parentDir st2 raw2 = StepResult.next st2' →
      st2'.content = st2.content ++ stripBom raw2 ++ ['\n'] ∧
      st2'.has_imagesdir = st2.has_imagesdir) := by
  have h1 : rustTrim raw ≠ "////".data := by
    rw [h]; exact cons_ne_cons_of_ne (by decide) _ _
  have h2 : rustTrim raw ≠ "[comment]".data := by
    rw [h]; exact cons_ne_cons_of_ne (by decide) _ _
  have h3 : rustTrim raw ≠ "--".data := by
    rw [h]; exact cons_ne_cons_of_ne (by decide) _ _
  have h4 : rustTrim raw ≠ [] := by rw [h]; simp
  have hcs : commentStep st (rustTrim raw) = st :=
    commentStep_eq_self st _ h1 h2 h3 h4
  rw [h] at hcs
  simp at hcs
  refine ⟨by simp [imagesdirRewriteCond, pathStartsWithSeg, and_assoc], ?_, ?_⟩
  · by_cases hc : imagesdirRewriteCond dir = true
    · have hsc : scanLine parentDir st raw = StepResult.next { st with has_imagesdir := true, content := st.content ++ stripBom raw ++ '\n' :: imagesdirRewriteLine parentDir dir } := by
        simp [scanLine, h, hcs, hb, hs, stripPre, List.isPrefixOf,
          try_parse_date_with_pre, hc]
      exact ⟨_, hsc, rfl, rfl, by simp [hc]⟩
    · have hsc : scanLine parentDir st raw = StepResult.next { st with has_imagesdir := true, content := st.content ++ stripBom raw ++ ['\n'] } := by
        simp [scanLine, h, hcs, hb, hs, stripPre, List.isPrefixOf,
          try_parse_date_with_pre, hc]
      exact ⟨_, hsc, rfl, rfl, by simp [hc]⟩
  · intro st2 raw2 st2' hnone hscan
    obtain ⟨inj, hcontent, _, hempty⟩ :=
      scanLine_next_cases parentDir st2 raw2 st2' hscan
    obtain ⟨hinj, hflag⟩ := hempty hnone
    subst hinj
    exact ⟨by simpa using hcontent, hflag⟩

theorem imagesdir_capture_witness :
    ∃ st', scanLine "docs".data initState ":imagesdir: images".data =
        StepResult.next st' ∧
      st'.has_imagesdir = true ∧ st'.revdate = none ∧
      st'.content = ":imagesdir: images\n:imagesdir: docs/images\n".data := by
  obtain ⟨st', hsc, hflag, hrd, hct⟩ := (imagesdir_capture "docs".data initState
    ":imagesdir: images".data "images".data (by decide) rfl rfl).2.1
  refine ⟨st', hsc, hflag, hrd, ?_⟩
  rw [hct]
  decide

/-- C6: every physical line — not only the first of the file — has a leading
U+FEFF (the decoded EF BB BF prefix) stripped before being appended to the
body; the strip removes only that leading char (the stripped line is a suffix
of the raw line, so nothing is inserted by it), and a BOM char can appear in a
line's body contribution beyond the stripped line text only if it was already
present in the raw line or in the parent-directory string used by the
imagesdir rewrite. -/
theorem bom_strip_per_line :
    (∀ t : List Char, stripBom (bomChar :: t) = t) ∧
    (∀ l : List Char, l.head? ≠ some bomChar → stripBom l = l) ∧
    (∀ l : List Char, stripBom l <:+ l) ∧
    (∀ (parentDir : List Char) (st : ScanState) (raw : List Char)
        (st' : ScanState),
      scanLine parentDir st raw = StepResult.next st' →
      ∃ inj, st'.content = st.content ++ stripBom raw ++ '\n' :: inj ∧
        (bomChar ∈ inj → bomChar ∈ raw ∨ bomChar ∈ parentDir)) := by
  refine ⟨fun t => by simp [stripBom], ?_, ?_, ?_⟩
  · intro l hl
    match l with
    | [] => rfl
    | c :: t =>
      have hc : ¬ c = bomChar := by
        intro hc; exact hl (by simp [hc])
      simp [stripBom, hc]
  · intro l
    match l with
    | [] => exact List.suffix_rfl
    | c :: t =>
      by_cases hc : c = bomChar
      · subst hc
        simp only [stripBom, if_pos rfl]
        exact List.suffix_cons _ _
      · simp [stripBom, hc]
  · intro parentDir st raw st' hscan
    obtain ⟨inj, hcontent, hcase, _⟩ :=
      scanLine_next_cases parentDir st raw st' hscan
    refine ⟨inj, hcontent, ?_⟩
    intro hbm
    rcases hcase with hempty | ⟨dir, hdir, hinj⟩
    · exact absurd (hempty ▸ hbm) (by simp)
    · rw [hinj] at hbm
      rcases rewriteLine_bom_mem _ _ hbm with hp | hd
      · exact Or.inr hp
      · exact Or.inl (rustTrim_subset raw ((stripPre_suffix _ _ _ hdir).subset hd))

theorem bom_strip_per_line_witness :
    stripBom (bomChar :: "abc".data) = "abc".data ∧
    (∃ inj, (appendBody initState (bomChar :: "abc".data)).content =
        initState.content ++ stripBom (bomChar :: "abc".data) ++ '\n' :: inj ∧
        (bomChar ∈ inj →
          bomChar ∈ (bomChar :: "abc".data) ∨ bomChar ∈ ([] : List Char))) :=
  ⟨bom_strip_per_line.1 "abc".data,
   bom_strip_per_line.2.2.2 [] initState (bomChar :: "abc".data) _ (by decide)⟩

/-- C8: the `sort_by` comparator orders documents descending by revdate: of
two dated documents the lexicographically greater (year, month, day) compares
`lt` (sorts first) and the smaller `gt`; every undated document compares `gt`
against every dated one (sorts after all of them); undated-vs-undated and
equal dates compare `eq`, leaving their relative order to the stable sort. -/
theorem sort_comparator (a b : Doc) (l r : Date) :
    (doc_cmp a b = revdate_cmp a.revdate b.revdate) ∧
    (dateLexLt r l → revdate_cmp (some l) (some r) = Ordering.lt) ∧
    (dateLexLt l r → revdate_cmp (some l) (some r) = Ordering.gt) ∧
    (revdate_cmp none (some l) = Ordering.gt) ∧
    (revdate_cmp (some l) none = Ordering.lt) ∧
    (revdate_cmp none none = Ordering.eq) ∧
    (l = r → revdate_cmp (some l) (some r) = Ordering.eq) := by
  refine ⟨rfl, ?_, ?_, rfl, rfl, rfl, ?_⟩
  · intro hlt
    rcases hlt with hy | ⟨hy, hmo | ⟨hmo, hda⟩⟩
    · simp [revdate_cmp, cmpN, hy]
    · simp [revdate_cmp, cmpN, hy, hmo, Nat.lt_irrefl]
    · simp [revdate_cmp, cmpN, hy, hmo, hda, Nat.lt_irrefl]
  · intro hlt
    rcases hlt with hy | ⟨hy, hmo | ⟨hmo, hda⟩⟩
    · have h1 : ¬ r.year < l.year := by omega
      have h2 : ¬ r.year = l.year := by omega
      simp [revdate_cmp, cmpN, h1, h2]
    · have h1 : ¬ r.month < l.month := by omega
      have h2 : ¬ r.month = l.month := by omega
      simp [revdate_cmp, cmpN, hy, Nat.lt_irrefl, h1, h2]
    · have h1 : ¬ r.day < l.day := by omega
      have h2 : ¬ r.day = l.day := by omega
      simp [revdate_cmp, cmpN, hy, hmo, Nat.lt_irrefl, h1, h2]
  · intro he
    subst he
    simp [revdate_cmp, cmpN]

theorem sort_comparator_witness :
    revdate_cmp (some ⟨2024, 5, 1⟩) (some ⟨2024, 3, 1⟩) = Ordering.lt ∧
    revdate_cmp none (some ⟨2024, 3, 1⟩) = Ordering.gt :=
  ⟨(sort_comparator (Doc.mk [] none [] false) (Doc.mk [] none [] false)
      ⟨2024, 5, 1⟩ ⟨2024, 3, 1⟩).2.1 (by decide),
   (sort_comparator (Doc.mk [] none [] false) (Doc.mk [] none [] false)
      ⟨2024, 3, 1⟩ ⟨2024, 5, 1⟩).2.2.2.1⟩

/-- C9: in the range-aware variant a document is kept iff it has a revdate `d`
with `start ≤ d ≤ end` — the `ge`/`le` short-circuit chains coincide with
inclusive lexicographic comparison; with the default bounds (minimum and
maximum representable dates) every dated document passes; undated documents
are always dropped by the filter, and the no-filter variant retains every
document. -/
theorem range_filter (s e : Date) (doc : Doc) :
    (∀ d : Date, doc.revdate = some d →
      (keep_filter s e doc = true ↔ (dateLexLe s d ∧ dateLexLe d e))) ∧
    (doc.revdate = none → keep_filter s e doc = false) ∧
    (∀ d : Date, doc.revdate = some d → d.year ≤ 65535 → d.month ≤ 255 →
      d.day ≤ 255 → keep_filter default_start default_end doc = true) ∧
    (∀ docs : List Doc,
      (doc ∈ selected_docs s e docs ↔ (doc ∈ docs ∧ keep_filter s e doc = true)) ∧
      selected_docs_nofilter docs = docs) := by
  have hge : ∀ x y : Date, (x.ge y = true) ↔ dateLexLe y x := by
    intro x y
    unfold Date.ge dateLexLe
    split_ifs <;> simp <;> omega
  have hle : ∀ x y : Date, (x.le y = true) ↔ dateLexLe x y := by
    intro x y
    unfold Date.le dateLexLe
    split_ifs <;> simp <;> omega
  refine ⟨?_, ?_, ?_, ?_⟩
  · intro d hd
    simp [keep_filter, hd, hge, hle]
  · intro hd
    simp [keep_filter, hd]
  · intro d hd hy hm hdd
    simp only [keep_filter, hd]
    rw [Bool.and_eq_true, hge, hle]
    constructor
    · unfold dateLexLe default_start
      rcases Nat.eq_zero_or_pos d.year with h0 | h0
      · right
        refine ⟨h0.symm, ?_⟩
        rcases Nat.eq_zero_or_pos d.month with hm0 | hm0
        · right; exact ⟨hm0.symm, Nat.zero_le _⟩
        · left; exact hm0
      · left; exact h0
    · unfold dateLexLe default_end
      rcases Nat.lt_or_ge d.year 65535 with h0 | h0
      · left; exact h0
      · right
        refine ⟨Nat.le_antisymm hy h0, ?_⟩
        rcases Nat.lt_or_ge d.month 255 with hm0 | hm0
        · left; exact hm0
        · right; exact ⟨Nat.le_antisymm hm hm0, hdd⟩
  · intro docs
    refine ⟨?_, rfl⟩
    simp [selected_docs, List.mem_filter]

theorem range_filter_witness :
    keep_filter ⟨2024, 4, 1⟩ ⟨2024, 12, 31⟩ (Doc.mk [] (some ⟨2024, 5, 1⟩) [] false) = true ∧
    keep_filter ⟨2024, 4, 1⟩ ⟨2024, 12, 31⟩ (Doc.mk [] (some ⟨2024, 3, 1⟩) [] false) = false ∧
    keep_filter ⟨2024, 4, 1⟩ ⟨2024, 12, 31⟩ (Doc.mk [] none [] false) = false ∧
    keep_filter default_start default_end (Doc.mk [] (some ⟨2024, 5, 1⟩) [] false) = true := by
  refine ⟨?_, by decide, ?_, ?_⟩
  · exact ((range_filter ⟨2024, 4, 1⟩ ⟨2024, 12, 31⟩
      (Doc.mk [] (some ⟨2024, 5, 1⟩) [] false)).1 ⟨2024, 5, 1⟩ rfl).mpr
      (by decide)
  · exact (range_filter ⟨2024, 4, 1⟩ ⟨2024, 12, 31⟩
      (Doc.mk [] none [] false)).2.1 rfl
  · exact (range_filter default_start default_end
      (Doc.mk [] (some ⟨2024, 5, 1⟩) [] false)).2.2.1 ⟨2024, 5, 1⟩ rfl
      (by decide) (by decide) (by decide)

theorem digitsVal_foldl_lt :
    ∀ (l : List Nat), l.all isDigitByte = true → ∀ a : Nat,
      l.foldl (fun acc b => acc * 10 + (b - 0x30)) a < (a + 1) * 10 ^ l.length := by
  intro l
  induction l with
  | nil => intro _ a; simpa using Nat.lt_succ_self a
  | cons b t ih =>
    intro hall a
    rw [List.all_cons, Bool.and_eq_true] at hall
    have hb9 : b - 0x30 ≤ 9 := by
      have h1 := hall.1
      simp only [isDigitByte, Bool.and_eq_true, decide_eq_true_eq] at h1
      omega
    have ihx := ih hall.2 (a * 10 + (b - 0x30))
    simp only [List.foldl_cons, List.length_cons]
    refine lt_of_lt_of_le ihx ?_
    have h2 : a * 10 + (b - 0x30) + 1 ≤ (a + 1) * 10 := by omega
    calc (a * 10 + (b - 0x30) + 1) * 10 ^ t.length
        ≤ ((a + 1) * 10) * 10 ^ t.length := mul_le_mul_right' h2 _
      _ = (a + 1) * 10 ^ (t.length + 1) := by ring

theorem digitsVal_lt (l : List Nat) (hall : l.all isDigitByte = true) :
    digitsVal l < 10 ^ l.length := by
  have h := digitsVal_foldl_lt l hall 0
  simpa [digitsVal] using h

theorem groupVal_lt (g : List Nat) (h : plusDigits g = true) :
    groupVal g < 10 ^ g.length := by
  rcases g with _ | ⟨b, t⟩
  · simp [plusDigits] at h
  · by_cases hb : b = 0x2B
    · subst hb
      have hpd := h
      simp [plusDigits] at hpd
      have hall : t.all isDigitByte = true := List.all_eq_true.mpr hpd.2
      have hgv : groupVal (0x2B :: t) = digitsVal t := by simp [groupVal]
      rw [hgv, List.length_cons]
      calc digitsVal t < 10 ^ t.length := digitsVal_lt t hall
        _ ≤ 10 ^ (t.length + 1) := Nat.pow_le_pow_right (by omega) (by omega)
    · have hpd := h
      simp [plusDigits, hb] at hpd
      have hall : (b :: t).all isDigitByte = true := by
        rw [List.all_cons, Bool.and_eq_true]
        exact ⟨hpd.1, List.all_eq_true.mpr hpd.2⟩
      have hgv : groupVal (b :: t) = digitsVal (b :: t) := by simp [groupVal, hb]
      rw [hgv]
      exact digitsVal_lt _ hall

theorem parse_group_aux (M : Nat) (ds : List Nat) :
    (if ds ≠ [] ∧ ds.all isDigitByte then
       if digitsVal ds ≤ M then some (digitsVal ds) else none
     else none) =
      if ((!ds.isEmpty && ds.all isDigitByte) = true ∧ digitsVal ds ≤ M)
      then some (digitsVal ds) else none := by
  by_cases h1 : ds ≠ [] ∧ ds.all isDigitByte = true
  · rw [if_pos h1]
    have he : (!ds.isEmpty && ds.all isDigitByte) = true := by
      rcases ds with _ | ⟨c, s⟩
      · exact absurd rfl h1.1
      · simpa using h1.2
    by_cases h2 : digitsVal ds ≤ M
    · rw [if_pos h2, if_pos ⟨he, h2⟩]
    · rw [if_neg h2, if_neg (fun hx => h2 hx.2)]
  · rw [if_neg h1]
    rw [if_neg]
    intro hx
    apply h1
    rcases ds with _ | ⟨c, s⟩
    · simp at hx
    · exact ⟨by simp, by simpa using hx.1⟩

theorem rustParseUnsigned_plusDigits (M : Nat) (g : List Nat) :
    rustParseUnsigned M g =
      if plusDigits g = true ∧ groupVal g ≤ M then some (groupVal g) else none := by
  rcases g with _ | ⟨b, t⟩
  · simp [rustParseUnsigned, plusDigits]
  · by_cases hb : b = 0x2B
    · subst hb
      have hpd : plusDigits (0x2B :: t) = (!t.isEmpty && t.all isDigitByte) := by
        simp [plusDigits]
      have hgv : groupVal (0x2B :: t) = digitsVal t := by
        simp [groupVal]
      rw [hpd, hgv]
      have hr : rustParseUnsigned M (0x2B :: t) =
          (if t ≠ [] ∧ t.all isDigitByte then
            if digitsVal t ≤ M then some (digitsVal t) else none
          else none) := by
        simp [rustParseUnsigned]
      rw [hr, parse_group_aux]
    · have hpd : plusDigits (b :: t) = (isDigitByte b && t.all isDigitByte) := by
        simp [plusDigits, hb]
      have hgv : groupVal (b :: t) = digitsVal (b :: t) := by
        simp [groupVal, hb]
      rw [hpd, hgv]
      have hr : rustParseUnsigned M (b :: t) =
          (if (b :: t) ≠ [] ∧ (b :: t).all isDigitByte then
            if digitsVal (b :: t) ≤ M then some (digitsVal (b :: t)) else none
          else none) := by
        simp [rustParseUnsigned, hb]
      rw [hr, parse_group_aux]
      have hc : (!(b :: t).isEmpty && (b :: t).all isDigitByte) =
          (isDigitByte b && t.all isDigitByte) := by
        simp [List.all_cons]
      rw [hc]

theorem plusDigits_of_all_digits (g : List Nat) (hne : g ≠ [])
    (hall : g.all isDigitByte = true) :
    plusDigits g = true ∧ groupVal g = digitsVal g := by
  rcases g with _ | ⟨b, t⟩
  · exact absurd rfl hne
  · rw [List.all_cons, Bool.and_eq_true] at hall
    have hbne : ¬ b = 0x2B := by
      have h1 := hall.1
      simp only [isDigitByte, Bool.and_eq_true, decide_eq_true_eq] at h1
      omega
    exact ⟨by simp [plusDigits, hbne, hall.1, hall.2],
           by simp [groupVal, hbne]⟩

/-- C7 counterexample: the code accepts the token `+123-01-01`, whose year
group starts with `+` — not a decimal digit — so acceptance is not limited to
the claimed all-digit `DDDD-DD-DD` pattern. -/
theorem date_parse_claim_counterexample :
    try_parse_date (encodeUtf8 "+123-01-01".data) =
      Except.ok { year := 123, month := 1, day := 1 } ∧
    claimDateFormat (encodeUtf8 "+123-01-01".data) = false := by
  constructor <;> decide

/-- C7 (amended): `try_parse_date` accepts a token iff it has exactly 10
bytes, literal hyphens at offsets 4 and 7, and three groups each consisting of
an optional leading `+` followed by decimal digits (the grammar of Rust's
unsigned-integer `parse`) whose values satisfy `year ≥ 1`, `1 ≤ month ≤ 12`,
`1 ≤ day ≤ 31`; on success the three fields are exactly the group values
(round-trip), and on any violation the error carries the raw token.  Every
token of the claimed all-digit pattern is still accepted. -/
theorem try_parse_date_amended (bs : List Nat) :
    (claimDateFormat bs = true → amendedDateFormat bs = true) ∧
    (amendedDateFormat bs = true →
      try_parse_date bs = Except.ok (Date.mk (groupVal (bs.take 4))
        (groupVal ((bs.drop 5).take 2)) (groupVal ((bs.drop 8).take 2)))) ∧
    (amendedDateFormat bs = false → try_parse_date bs = Except.error bs) := by
  refine ⟨?_, ?_, ?_⟩
  · intro hcl
    simp only [claimDateFormat, Bool.and_eq_true, decide_eq_true_eq] at hcl
    obtain ⟨⟨⟨⟨⟨⟨⟨⟨⟨⟨hlen, ha1⟩, h4⟩, ha2⟩, h7⟩, ha3⟩, hr1⟩, hr2⟩, hr3⟩, hr4⟩, hr5⟩ := hcl
    have hne1 : bs.take 4 ≠ [] := by
      have hx : (bs.take 4).length = 4 := by simp [List.length_take, hlen]
      intro hy; rw [hy] at hx; simp at hx
    have hne2 : (bs.drop 5).take 2 ≠ [] := by
      have hx : ((bs.drop 5).take 2).length = 2 := by
        simp [List.length_take, List.length_drop, hlen]
      intro hy; rw [hy] at hx; simp at hx
    have hne3 : (bs.drop 8).take 2 ≠ [] := by
      have hx : ((bs.drop 8).take 2).length = 2 := by
        simp [List.length_take, List.length_drop, hlen]
      intro hy; rw [hy] at hx; simp at hx
    obtain ⟨hp1, he1⟩ := plusDigits_of_all_digits _ hne1 ha1
    obtain ⟨hp2, he2⟩ := plusDigits_of_all_digits _ hne2 ha2
    obtain ⟨hp3, he3⟩ := plusDigits_of_all_digits _ hne3 ha3
    simp only [amendedDateFormat, Bool.and_eq_true, decide_eq_true_eq]
    exact ⟨⟨⟨⟨⟨⟨⟨⟨⟨⟨hlen, h4⟩, h7⟩, hp1⟩, hp2⟩, hp3⟩, by rw [he1]; exact hr1⟩,
      by rw [he2]; exact hr2⟩, by rw [he2]; exact hr3⟩,
      by rw [he3]; exact hr4⟩, by rw [he3]; exact hr5⟩
  · intro ham
    simp only [amendedDateFormat, Bool.and_eq_true, decide_eq_true_eq] at ham
    obtain ⟨⟨⟨⟨⟨⟨⟨⟨⟨⟨hlen, h4⟩, h7⟩, hp1⟩, hp2⟩, hp3⟩, hr1⟩, hr2⟩, hr3⟩, hr4⟩, hr5⟩ := ham
    have hl1 : (bs.take 4).length = 4 := by simp [List.length_take, hlen]
    have hl2 : ((bs.drop 5).take 2).length = 2 := by
      simp [List.length_take, List.length_drop, hlen]
    have hl3 : ((bs.drop 8).take 2).length = 2 := by
      simp [List.length_take, List.length_drop, hlen]
    have hb1 : groupVal (bs.take 4) ≤ 65535 := by
      have hx := groupVal_lt _ hp1; rw [hl1] at hx; omega
    have hb2 : groupVal ((bs.drop 5).take 2) ≤ 255 := by
      have hx := groupVal_lt _ hp2; rw [hl2] at hx; omega
    have hb3 : groupVal ((bs.drop 8).take 2) ≤ 255 := by
      have hx := groupVal_lt _ hp3; rw [hl3] at hx; omega
    have hr1' : 0 < groupVal (bs.take 4) := hr1
    simp only [try_parse_date, List.drop_zero]
    rw [if_pos hlen, if_pos ⟨h4, h7⟩]
    rw [rustParseUnsigned_plusDigits, rustParseUnsigned_plusDigits,
      rustParseUnsigned_plusDigits]
    have e1 : (if plusDigits (bs.take 4) = true ∧ groupVal (bs.take 4) ≤ 65535
        then some (groupVal (bs.take 4)) else none) =
          some (groupVal (bs.take 4)) := if_pos ⟨hp1, hb1⟩
    have e2 : (if plusDigits ((bs.drop 5).take 2) = true ∧
          groupVal ((bs.drop 5).take 2) ≤ 255
        then some (groupVal ((bs.drop 5).take 2)) else none) =
          some (groupVal ((bs.drop 5).take 2)) := if_pos ⟨hp2, hb2⟩
    have e3 : (if plusDigits ((bs.drop 8).take 2) = true ∧
          groupVal ((bs.drop 8).take 2) ≤ 255
        then some (groupVal ((bs.drop 8).take 2)) else none) =
          some (groupVal ((bs.drop 8).take 2)) := if_pos ⟨hp3, hb3⟩
    rw [e1, e2, e3]
    simp only [Option.getD_some]
    rw [if_pos ⟨hr1', hr2, hr3, hr4, hr5⟩]
  · intro ham
    by_cases hlen : bs.length = 10
    · by_cases h4 : bs.get? 4 = some 0x2D
      · by_cases h7 : bs.get? 7 = some 0x2D
        · have ham' : ¬ (amendedDateFormat bs = true) := by
            rw [ham]; simp
          simp only [try_parse_date, List.drop_zero]
          rw [if_pos hlen, if_pos ⟨h4, h7⟩]
          rw [rustParseUnsigned_plusDigits, rustParseUnsigned_plusDigits,
            rustParseUnsigned_plusDigits]
          have hl1 : (bs.take 4).length = 4 := by simp [List.length_take, hlen]
          have hl2 : ((bs.drop 5).take 2).length = 2 := by
            simp [List.length_take, List.length_drop, hlen]
          have hl3 : ((bs.drop 8).take 2).length = 2 := by
            simp [List.length_take, List.length_drop, hlen]
          by_cases hp1 : plusDigits (bs.take 4) = true
          · have hb1 : groupVal (bs.take 4) ≤ 65535 := by
              have hx := groupVal_lt _ hp1; rw [hl1] at hx; omega
            have e1 : (if plusDigits (bs.take 4) = true ∧
                  groupVal (bs.take 4) ≤ 65535
                then some (groupVal (bs.take 4)) else none) =
                  some (groupVal (bs.take 4)) := if_pos ⟨hp1, hb1⟩
            rw [e1]
            by_cases hp2 : plusDigits ((bs.drop 5).take 2) = true
            · have hb2 : groupVal ((bs.drop 5).take 2) ≤ 255 := by
                have hx := groupVal_lt _ hp2; rw [hl2] at hx; omega
              have e2 : (if plusDigits ((bs.drop 5).take 2) = true ∧
                    groupVal ((bs.drop 5).take 2) ≤ 255
                  then some (groupVal ((bs.drop 5).take 2)) else none) =
                    some (groupVal ((bs.drop 5).take 2)) := if_pos ⟨hp2, hb2⟩
              rw [e2]
              by_cases hp3 : plusDigits ((bs.drop 8).take 2) = true
              · have hb3 : groupVal ((bs.drop 8).take 2) ≤ 255 := by
                  have hx := groupVal_lt _ hp3; rw [hl3] at hx; omega
                have e3 : (if plusDigits ((bs.drop 8).take 2) = true ∧
                      groupVal ((bs.drop 8).take 2) ≤ 255
                    then some (groupVal ((bs.drop 8).take 2)) else none) =
                      some (groupVal ((bs.drop 8).take 2)) := if_pos ⟨hp3, hb3⟩
                rw [e3]
                simp only [Option.getD_some]
                rw [if_neg]
                intro hy
                obtain ⟨hy1, hy2, hy3, hy4, hy5⟩ := hy
                exact ham' (by
                  simp only [amendedDateFormat, Bool.and_eq_true, decide_eq_true_eq]
                  exact ⟨⟨⟨⟨⟨⟨⟨⟨⟨⟨hlen, h4⟩, h7⟩, hp1⟩, hp2⟩, hp3⟩, hy1⟩, hy2⟩,
                    hy3⟩, hy4⟩, hy5⟩)
              · have e3 : (if plusDigits ((bs.drop 8).take 2) = true ∧
                      groupVal ((bs.drop 8).take 2) ≤ 255
                    then some (groupVal ((bs.drop 8).take 2)) else none) =
                      none := if_neg (fun hy => hp3 hy.1)
                rw [e3]
                simp only [Option.getD_some, Option.getD_none]
                rw [if_neg]
                intro hy
                omega
            · have e2 : (if plusDigits ((bs.drop 5).take 2) = true ∧
                    groupVal ((bs.drop 5).take 2) ≤ 255
                  then some (groupVal ((bs.drop 5).take 2)) else none) =
                    none := if_neg (fun hy => hp2 hy.1)
              rw [e2]
              simp only [Option.getD_some, Option.getD_none]
              rw [if_neg]
              intro hy
              omega
          · have e1 : (if plusDigits (bs.take 4) = true ∧
                  groupVal (bs.take 4) ≤ 65535
                then some (groupVal (bs.take 4)) else none) =
                  none := if_neg (fun hy => hp1 hy.1)
            rw [e1]
            simp only [Option.getD_some, Option.getD_none]
            rw [if_neg]
            intro hy
            omega
        · simp only [try_parse_date, List.drop_zero]
          rw [if_pos hlen, if_neg (fun hy => h7 hy.2)]
      · simp only [try_parse_date, List.drop_zero]
        rw [if_pos hlen, if_neg (fun hy => h4 hy.1)]
    · simp only [try_parse_date, List.drop_zero]
      rw [if_neg hlen]

theorem try_parse_date_amended_witness :
    try_parse_date (encodeUtf8 "2024-01-05".data) =
      Except.ok (Date.mk (groupVal ((encodeUtf8 "2024-01-05".data).take 4))
        (groupVal (((encodeUtf8 "2024-01-05".data).drop 5).take 2))
        (groupVal (((encodeUtf8 "2024-01-05".data).drop 8).take 2))) :=
  (try_parse_date_amended (encodeUtf8 "2024-01-05".data)).2.1 (by decide)

theorem contOk_spec : ∀ (n : Nat) (l l' : List Nat), contOk n l = some l' →
    l.drop n = l' ∧ n ≤ l.length ∧
      ∀ j, j < n → ∀ b, l.get? j = some b → isCont b = true := by
  intro n
  induction n with
  | zero =>
    intro l l' h
    simp only [contOk, Option.some.injEq] at h
    exact ⟨h, by omega, fun j hj => by omega⟩
  | succ m ih =>
    intro l l' h
    rcases l with _ | ⟨c, t⟩
    · simp [contOk] at h
    · simp only [contOk] at h
      by_cases hc : isCont c = true
      · rw [if_pos hc] at h
        obtain ⟨hd, hle, hcont⟩ := ih t l' h
        refine ⟨hd, by simp only [List.length_cons]; omega, ?_⟩
        intro j hj b hget
        rcases j with _ | j
        · simp only [List.get?] at hget
          injection hget with hb
          rw [← hb]
          exact hc
        · simp only [List.get?] at hget
          exact hcont j (by omega) b hget
      · rw [if_neg hc] at h
        exact absurd h (by simp)

theorem utf8Chunked_cons (b : Nat) (rest : List Nat)
    (h : utf8Chunked (b :: rest) = true) :
    ∃ n rest', utf8SeqLen b = some n ∧ contOk n rest = some rest' ∧
      utf8Chunked rest' = true := by
  rw [utf8Chunked] at h
  split at h
  · split at h
    · rename_i n hseq rest' hco
      exact ⟨n, rest', hseq, hco, h⟩
    · exact absurd h (by simp)
  · exact absurd h (by simp)

theorem utf8Chunked_head_not_cont (b : Nat) (rest : List Nat)
    (h : utf8Chunked (b :: rest) = true) : isCont b = false := by
  obtain ⟨n, rest', hseq, _, _⟩ := utf8Chunked_cons b rest h
  by_contra hx
  rw [Bool.not_eq_false] at hx
  simp only [isCont, Bool.and_eq_true, decide_eq_true_eq] at hx
  unfold utf8SeqLen at hseq
  rw [if_neg (by omega), if_neg (by omega), if_neg (by omega),
    if_neg (by omega)] at hseq
  exact absurd hseq (by simp)

theorem chunked_get0_not_cont (l : List Nat) (hv : utf8Chunked l = true)
    (b : Nat) (h : l.get? 0 = some b) : isCont b = false := by
  rcases l with _ | ⟨c, t⟩
  · simp at h
  · simp only [List.get?] at h
    injection h with hcb
    rw [← hcb]
    exact utf8Chunked_head_not_cont c t hv

theorem utf8Chunked_drop : ∀ (l : List Nat), utf8Chunked l = true →
    ∀ (i a : Nat), l.get? i = some a → a < 0x80 →
      utf8Chunked (l.drop (i + 1)) = true := by
  intro l
  induction l using utf8Chunked.induct with
  | case1 => intro _ i a hget _; simp at hget
  | case2 b rest n hseq rest' hco ih =>
    intro hl i a hget hlt
    obtain ⟨n2, rest2, hseq2, hco2, hrest2⟩ := utf8Chunked_cons b rest hl
    rw [hseq] at hseq2
    injection hseq2 with hn2
    subst hn2
    rw [hco] at hco2
    injection hco2 with hr2
    subst hr2
    obtain ⟨hdrop, hnle, hcontb⟩ := contOk_spec n rest rest' hco
    rcases i with _ | j
    · simp only [List.get?] at hget
      injection hget with hba
      subst hba
      have hn0 : n = 0 := by
        unfold utf8SeqLen at hseq
        rw [if_pos hlt] at hseq
        injection hseq with h0
        omega
      subst hn0
      simp only [contOk, Option.some.injEq] at hco
      show utf8Chunked rest = true
      rw [hco]
      exact hrest2
    · simp only [List.get?] at hget
      by_cases hj : j < n
      · have hcb := hcontb j hj a hget
        simp only [isCont, Bool.and_eq_true, decide_eq_true_eq] at hcb
        omega
      · have hget' : rest'.get? (j - n) = some a := by
          rw [← hdrop, List.get?_drop]
          have hx : n + (j - n) = j := by omega
          rw [hx]
          exact hget
        have hih := ih hrest2 (j - n) a hget' hlt
        show utf8Chunked (rest.drop (j + 1)) = true
        have heq : rest.drop (j + 1) = rest'.drop (j - n + 1) := by
          rw [← hdrop, List.drop_drop]
          congr 1
          omega
        rw [heq]
        exact hih
  | case3 b rest n hseq hco =>
    intro hl
    exfalso
    obtain ⟨n2, rest2, hseq2, hco2, _⟩ := utf8Chunked_cons b rest hl
    rw [hseq] at hseq2
    injection hseq2 with hn2
    subst hn2
    rw [hco] at hco2
    exact absurd hco2 (by simp)
  | case4 b rest hseq =>
    intro hl
    exfalso
    obtain ⟨n2, rest2, hseq2, _, _⟩ := utf8Chunked_cons b rest hl
    rw [hseq] at hseq2
    exact absurd hseq2 (by simp)

theorem boundary_of_not_cont (l : List Nat) (i b : Nat)
    (hget : l.get? i = some b) (hc : isCont b = false) :
    isCharBoundaryRust l i = true := by
  unfold isCharBoundaryRust
  rw [hget]
  simp only [Bool.or_eq_true, decide_eq_true_eq]
  have hb : ¬ (0x80 ≤ b ∧ b < 0xC0) := by
    intro hy
    have hx : isCont b = true := by
      simp [isCont, hy.1, hy.2]
    rw [hx] at hc
    exact absurd hc (by simp)
  omega

theorem boundary_after_ascii (l : List Nat) (hv : utf8Chunked l = true)
    (i a : Nat) (hget : l.get? i = some a) (ha : a < 0x80)
    (b : Nat) (hgetn : l.get? (i + 1) = some b) :
    isCharBoundaryRust l (i + 1) = true := by
  have hch := utf8Chunked_drop l hv i a hget ha
  have hz : (l.drop (i + 1)).get? 0 = some b := by
    rw [List.get?_drop, Nat.add_zero]
    exact hgetn
  exact boundary_of_not_cont l (i + 1) b hgetn
    (chunked_get0_not_cont _ hch b hz)

/-- C10: `try_parse_date` is total and safe on every input string.  The
instrumented version, in which the byte reads `date[4]`, `date[7]` and the
str slices `[0..=3]`, `[5..=6]`, `[8..=9]` each return `none` on an
out-of-bounds access or a slice end that is not a char boundary (Rust's panic
conditions), agrees with the pure function — it never panics — on every
UTF-8-shaped byte string, which includes the bytes of every Rust `&str`: the
accesses happen only after the length-10 check, offsets 0, 4, 7 and 10 are
boundaries because bytes 4 and 7 were checked to be ASCII `-`, and offsets 5
and 8 are boundaries because in UTF-8 a continuation byte can never follow an
ASCII byte. -/
theorem try_parse_date_safe (bs : List Nat) (hv : utf8Chunked bs = true) :
    try_parse_date_checked bs = some (try_parse_date bs) := by
  by_cases hlen : bs.length = 10
  · have hget4 : ∃ b, bs.get? 4 = some b := by
      rcases hx : bs.get? 4 with _ | b
      · exfalso; have := List.get?_eq_none.mp hx; omega
      · exact ⟨b, rfl⟩
    obtain ⟨b4, hb4⟩ := hget4
    have hget7 : ∃ b, bs.get? 7 = some b := by
      rcases hx : bs.get? 7 with _ | b
      · exfalso; have := List.get?_eq_none.mp hx; omega
      · exact ⟨b, rfl⟩
    obtain ⟨b7, hb7⟩ := hget7
    by_cases h47 : b4 = 0x2D ∧ b7 = 0x2D
    · obtain ⟨hb4e, hb7e⟩ := h47
      subst hb4e
      subst hb7e
      have hget0 : ∃ b, bs.get? 0 = some b := by
        rcases hx : bs.get? 0 with _ | b
        · exfalso; have := List.get?_eq_none.mp hx; omega
        · exact ⟨b, rfl⟩
      obtain ⟨b0, hb0⟩ := hget0
      have hget5 : ∃ b, bs.get? 5 = some b := by
        rcases hx : bs.get? 5 with _ | b
        · exfalso; have := List.get?_eq_none.mp hx; omega
        · exact ⟨b, rfl⟩
      obtain ⟨b5, hb5⟩ := hget5
      have hget8 : ∃ b, bs.get? 8 = some b := by
        rcases hx : bs.get? 8 with _ | b
        · exfalso; have := List.get?_eq_none.mp hx; omega
        · exact ⟨b, rfl⟩
      obtain ⟨b8, hb8⟩ := hget8
      have hB0 : isCharBoundaryRust bs 0 = true :=
        boundary_of_not_cont _ 0 b0 hb0 (chunked_get0_not_cont bs hv b0 hb0)
      have hB4 : isCharBoundaryRust bs 4 = true :=
        boundary_of_not_cont _ 4 _ hb4 (by decide)
      have hB7 : isCharBoundaryRust bs 7 = true :=
        boundary_of_not_cont _ 7 _ hb7 (by decide)
      have hB5 : isCharBoundaryRust bs 5 = true :=
        boundary_after_ascii bs hv 4 0x2D hb4 (by omega) b5 hb5
      have hB8 : isCharBoundaryRust bs 8 = true :=
        boundary_after_ascii bs hv 7 0x2D hb7 (by omega) b8 hb8
      have hB10 : isCharBoundaryRust bs 10 = true := by
        unfold isCharBoundaryRust
        have hx : bs.get? 10 = none := List.get?_eq_none.mpr (by omega)
        rw [hx]
        simp [hlen]
      have hs1 : strSliceChecked bs 0 4 = some ((bs.drop 0).take 4) := by
        unfold strSliceChecked
        rw [if_pos ⟨by omega, hB0, hB4⟩]
      have hs2 : strSliceChecked bs 5 7 = some ((bs.drop 5).take 2) := by
        unfold strSliceChecked
        rw [if_pos ⟨by omega, hB5, hB7⟩]
      have hs3 : strSliceChecked bs 8 10 = some ((bs.drop 8).take 2) := by
        unfold strSliceChecked
        rw [if_pos ⟨by omega, hB8, hB10⟩]
      simp only [try_parse_date_checked, try_parse_date, hb4, hb7,
        hs1, hs2, hs3]
      rw [if_pos hlen, if_pos hlen]
      simp only [and_self, if_true]
    · simp only [try_parse_date_checked, try_parse_date, hb4, hb7]
      rw [if_pos hlen, if_pos hlen]
      rw [if_neg h47,
        if_neg (fun hy => h47 ⟨Option.some.inj hy.1, Option.some.inj hy.2⟩)]
  · simp only [try_parse_date_checked, try_parse_date]
    rw [if_neg hlen, if_neg hlen]

theorem utf8Chunked_ascii_cons (b : Nat) (l : List Nat) (hb : b < 0x80) :
    utf8Chunked (b :: l) = utf8Chunked l := by
  rw [utf8Chunked]
  rw [show utf8SeqLen b = some 0 from by unfold utf8SeqLen; rw [if_pos hb]]
  rfl

theorem utf8Chunked_all_ascii : ∀ l : List Nat,
    l.all (fun b => b < 0x80) = true → utf8Chunked l = true := by
  intro l
  induction l with
  | nil => rw [utf8Chunked]; intro _; rfl
  | cons b t ih =>
    intro hall
    rw [List.all_cons, Bool.and_eq_true] at hall
    rw [utf8Chunked_ascii_cons b t (by simpa using hall.1)]
    exact ih hall.2

theorem try_parse_date_safe_witness :
    try_parse_date_checked (encodeUtf8 "2024-01-05".data) =
      some (try_parse_date (encodeUtf8 "2024-01-05".data)) :=
  try_parse_date_safe (encodeUtf8 "2024-01-05".data)
    (utf8Chunked_all_ascii _ (by decide))
